import Mathlib

/-!
Verification of the kcursor cursor-theme loader (src/lib.rs).

The Rust module is embedded shallowly:
* filesystem access (`read_dir`, `is_dir`, `canonicalize`, `read_to_string`)
  is abstracted into an explicit filesystem record `Fs` / directory listings
  of `Entry` values;
* the `HashMap<OsString, Arc<Cursor>>` cache is modelled as an association
  list from shape names to handles (`Nat` indices) into an arena of
  `Cursor` values; two names share one `Arc` exactly when they map to the
  same handle;
* the floating-point computations in `Image::render_svg` (`f32` scale and
  truncating casts) are abstracted as oracle-provided natural numbers,
  so that the control flow (read / parse / `Pixmap::new` failure
  propagation) is modelled exactly while the `f32` arithmetic itself is not.
-/

namespace Kcursor

/-! ## Theme-index reader: `theme_inherits` (src/lib.rs lines 167-198) -/

/-- Function `is_xcursor_space_or_separator` from src/lib.rs: whitespace, `;` or `,`.
(Rust `char::is_whitespace` is modelled by `Char.isWhitespace`.) -/
def is_xcursor_space_or_separator (ch : Char) : Bool :=
  ch.isWhitespace || ch = ';' || ch = ','

/-- The literal token `Inherits`. -/
def INHERITS : List Char := ['I', 'n', 'h', 'e', 'r', 'i', 't', 's']

/-- Rust `str::lines`: split at `\n`, dropping one `\r` before each `\n`;
a final fragment is produced only if non-empty.  `cur` holds the current
line, reversed. -/
def rustLinesGo (cur : List Char) : List Char → List (List Char)
  | [] => if cur.isEmpty then [] else [cur.reverse]
  | c :: rest =>
    if c = '\n' then
      (match cur with
        | '\r' :: cs => cs.reverse
        | cs => cs.reverse) :: rustLinesGo [] rest
    else
      rustLinesGo (c :: cur) rest

/-- Rust `str::lines` on a list of characters. -/
def rustLines (content : List Char) : List (List Char) :=
  rustLinesGo [] content

/-- One iteration of the `for line in content.lines()` loop of
`theme_inherits`: `continue` is `none`, `return Some(..)` is `some`.
`line.starts_with(INHERITS)` is `line.take 8 = INHERITS`; the iterator
`chars.next() != Some('=')` test is the `head?` comparison, the consumed
iterator is `drop 1`. -/
def inheritsFromLine (line : List Char) : Option String :=
  if line.take 8 = INHERITS then
    let rest := (line.drop 8).dropWhile Char.isWhitespace
    if rest.head? = some '=' then
      let value :=
        ((rest.drop 1).dropWhile is_xcursor_space_or_separator).takeWhile
          (fun ch => !is_xcursor_space_or_separator ch)
      if value.isEmpty then none else some (String.mk value)
    else none
  else none

/-- Function `theme_inherits` (src/lib.rs) applied to file content that was read
successfully. -/
def theme_inherits (content : String) : Option String :=
  (rustLines content.toList).findSome? inheritsFromLine

/-- Function `theme_inherits` including the `std::fs::read_to_string(path).ok()?`
step: the argument is `none` when the file is absent or unreadable. -/
def theme_inherits_file (file : Option String) : Option String :=
  file.bind theme_inherits

/-! ### Specification-side reformulation of the parsing rule (for C7) -/

/-- Spec wording: "trimmed of leading separator/whitespace characters
(space, comma, semicolon)". -/
def specSeparator (ch : Char) : Bool :=
  ch = ' ' || ch = ',' || ch = ';' || ch.isWhitespace

/-- Spec wording: the line "begins with the literal token": a direct
recursive prefix test. -/
def beginsWith : List Char → List Char → Bool
  | [], _ => true
  | _ :: _, [] => false
  | p :: ps, c :: cs => p = c && beginsWith ps cs

/-- Spec wording: "followed by optional whitespace" — skip a run of
whitespace characters. -/
def skipSpaces : List Char → List Char
  | [] => []
  | c :: rest => if c.isWhitespace then skipSpaces rest else c :: rest

/-- The value of one line according to the spec's parsing rule: the line
must begin with the literal token `Inherits`, then optional whitespace,
then `=`; the value is the run of characters after the `=` trimmed of
leading separators up to the next separator; an empty value is no
declaration. -/
def specLineValue (line : List Char) : Option String :=
  if beginsWith INHERITS line then
    let rest := skipSpaces (line.drop INHERITS.length)
    if rest.head? = some '=' then
      let value :=
        ((rest.drop 1).dropWhile specSeparator).takeWhile
          (fun ch => !specSeparator ch)
      if value.isEmpty then none else some (String.mk value)
    else none
  else none

/-- The spec's reader: the first line whose parsing-rule value is
non-empty; nothing when no line yields one. -/
def theme_inherits_spec (content : String) : Option String :=
  (rustLines content.toList).findSome? specLineValue

/-! ## Data model: `Cursor`, directory entries, the cache

`HashMap<OsString, Arc<Cursor>>` is modelled as an association list from
shape names to handles (indices into an arena of `Cursor` values);
`Arc::clone` is sharing the handle.  `cache.insert` prepends, and lookup
takes the first match, which matches `HashMap::insert` overwrite
semantics; `contains_key` is `isSome` of the lookup. -/

/-- Type `Cursor` (src/lib.rs lines 202-214): an svg cursor icon holding the
path to its directory, or an xcursor icon holding the path to its file. -/
inductive Cursor where
  | Svg (path : String)
  | X (path : String)
deriving DecidableEq

/-- One surviving entry of `read_dir` (those for which `entry.metadata()`
succeeded; the others are dropped by the `filter_map` on line 127).
`canonical` models `std::fs::canonicalize(entry.path())` together with
`resolved.parent()` and `resolved.file_name()`: `some (parent, target)`
when canonicalisation succeeds and the resolved path has a parent
directory and file name, `none` when canonicalisation fails or the
resolved path has no parent (in both cases the code `continue`s without
touching the cache). -/
structure Entry where
  name : String
  isSymlink : Bool
  canonical : Option (String × String)
deriving DecidableEq

/-- The shared discovery state: the shape-name cache (association list,
first match wins) plus the arena of allocated `Cursor` values.  A cache
value is a handle into the arena; equal handles model one shared `Arc`. -/
structure Scan where
  cache : List (String × Nat)
  arena : List Cursor
deriving DecidableEq

/-- First-match association-list lookup (`HashMap::get` / `contains_key`). -/
def lookupName (k : String) : List (String × Nat) → Option Nat
  | [] => none
  | p :: rest => if p.1 = k then some p.2 else lookupName k rest

/-- The body of the `for (entry, meta) in entries.into_iter().chain(symlinks)`
loop of `CursorTheme::discover_cursors` (src/lib.rs lines 130-155). -/
def processEntry (directory : String) (fn : String → Cursor) (st : Scan)
    (e : Entry) : Scan :=
  if (lookupName e.name st.cache).isSome then st
  else if e.isSymlink then
    match e.canonical with
    | none => st
    | some (parent, target) =>
      if parent = directory then
        match lookupName target st.cache with
        | some handle => { st with cache := (e.name, handle) :: st.cache }
        | none => st
      else st
  else
    { cache := (e.name, st.arena.length) :: st.cache
      arena := st.arena ++ [fn (directory ++ "/" ++ e.name)] }

/-- Function `CursorTheme::discover_cursors` (src/lib.rs lines 118-156): `none`
models a failed `read_dir` (scan contributes nothing); otherwise the
entries are partitioned into non-symlinks and symlinks, the non-symlinks
are processed first, the symlinks second. -/
def discover_cursors (directory : String) (fn : String → Cursor)
    (listing : Option (List Entry)) (st : Scan) : Scan :=
  match listing with
  | none => st
  | some es =>
    let parts := es.partition (fun e => !e.isSymlink)
    (parts.1 ++ parts.2).foldl (processEntry directory fn) st

/-! ## Theme resolution: search roots, `discover`, `load` -/

/-- The filesystem as seen by theme resolution: the memoized search-root
sequence `CURSOR_DIRS` plus read-only directory and file queries.
`readDir` returns the surviving entries of a readable directory (`none`
models a failed `read_dir`), `readFile` the content of a readable file. -/
structure Fs where
  roots : List String
  isDir : String → Bool
  readDir : String → Option (List Entry)
  readFile : String → Option String

/-- Function `CursorTheme::discover_svg_cursors` (src/lib.rs line 110). -/
def discover_svg_cursors (fs : Fs) (directory : String) (st : Scan) : Scan :=
  discover_cursors directory Cursor.Svg (fs.readDir directory) st

/-- Function `CursorTheme::discover_x_cursors` (src/lib.rs line 114). -/
def discover_x_cursors (fs : Fs) (directory : String) (st : Scan) : Scan :=
  discover_cursors directory Cursor.X (fs.readDir directory) st

/-- The per-root format selection of `CursorTheme::discover` (src/lib.rs
lines 85-93): prefer `cursors_scalable` when it is a directory, else fall
back to `cursors` when that is a directory, else scan nothing. -/
def scanRoot (fs : Fs) (path : String) (st : Scan) : Scan :=
  if fs.isDir (path ++ "/cursors_scalable") then
    discover_svg_cursors fs (path ++ "/cursors_scalable") st
  else if fs.isDir (path ++ "/cursors") then
    discover_x_cursors fs (path ++ "/cursors") st
  else st

/-- One iteration of the `for path in &*CURSOR_DIRS` loop of
`CursorTheme::discover` (src/lib.rs lines 82-102): the accumulator is the
scan state together with the first recorded inheritance target; the
index file is only read while no inheritance target is recorded yet. -/
def rootStep (fs : Fs) (name : String) (acc : Scan × Option String)
    (root : String) : Scan × Option String :=
  if fs.isDir (root ++ "/" ++ name) then
    (scanRoot fs (root ++ "/" ++ name) acc.1,
     if acc.2.isNone then
       theme_inherits_file (fs.readFile (root ++ "/" ++ name ++ "/index.theme"))
     else acc.2)
  else acc

/-- Processing of one popped theme name over all search roots, in search
order. -/
def discoverStep (fs : Fs) (name : String) (st : Scan) : Scan × Option String :=
  fs.roots.foldl (rootStep fs name) (st, none)

/-- The `while let Some(name) = stack.pop()` worklist of
`CursorTheme::discover` (src/lib.rs lines 76-108), with an explicit fuel
bound on the number of loop iterations (the Rust loop has no cycle guard
and can run forever on cyclic inheritance; all properties below hold for
every fuel value, hence for every finite prefix of that loop). -/
def discoverLoop (fs : Fs) : Nat → List String → Scan → Scan
  | 0, _, st => st
  | _ + 1, [], st => st
  | fuel + 1, name :: stack, st =>
    match discoverStep fs name st with
    | (st2, some it) => discoverLoop fs fuel (it :: stack) st2
    | (st2, none) => discoverLoop fs fuel stack st2

/-- Function `CursorTheme::discover` seeded with the requested name. -/
def discover (fs : Fs) (fuel : Nat) (icon : String) (st : Scan) : Scan :=
  discoverLoop fs fuel [icon] st

/-- Type `CursorTheme` (src/lib.rs line 55): the consolidated cache, plus the
arena realising the shared `Arc<Cursor>` handles. -/
structure CursorTheme where
  cache : List (String × Nat)
  arena : List Cursor

/-- Function `CursorTheme::load` (src/lib.rs lines 65-74). -/
def load (fs : Fs) (fuel : Nat) (name : String) : Option CursorTheme :=
  let st := discover fs fuel name ⟨[], []⟩
  if st.cache.isEmpty then none else some ⟨st.cache, st.arena⟩

/-- Function `CursorTheme::icon` (src/lib.rs lines 159-161): cache lookup,
dereferencing the shared handle. -/
def CursorTheme.icon (t : CursorTheme) (name : String) : Option Cursor :=
  match lookupName name t.cache with
  | some h => t.arena.get? h
  | none => none

/-- A small concrete filesystem used by the witnesses: theme `t` has an
SVG-format directory under root `r1` and a legacy-format directory under
root `r2`, with shape `arrow` present under both. -/
def fsDemo : Fs where
  roots := ["r1", "r2"]
  isDir := fun p =>
    p = "r1/t" || p = "r1/t/cursors_scalable" || p = "r2/t" || p = "r2/t/cursors"
  readDir := fun p =>
    if p = "r1/t/cursors_scalable" then some [⟨"arrow", false, none⟩]
    else if p = "r2/t/cursors" then
      some [⟨"arrow", false, none⟩, ⟨"wait", false, none⟩]
    else none
  readFile := fun _ => none

/-- Variant of `fsDemo` with a different listing for `r1/t/cursors` only. -/
def fsDemo2 : Fs :=
  { fsDemo with
    readDir := fun p =>
      if p = "r1/t/cursors" then some [⟨"legacy", false, none⟩]
      else fsDemo.readDir p }

/-! ## Frame extraction: `Cursor::frames` (src/lib.rs lines 230-263) -/

/-- Rust `u32::abs_diff`. -/
def abs_diff (a b : Nat) : Nat := max a b - min a b

/-- Rust `Iterator::min_by_key`: the minimum, where the first of equally
minimal elements is returned (a later element replaces the accumulator
only on strict decrease of the key). -/
def min_by_key {α : Type} (key : α → Nat) : List α → Option α
  | [] => none
  | x :: xs => some (xs.foldl (fun acc y => if key y < key acc then y else acc) x)

/-- Specification-side "first minimizer": the first element whose key
attains the minimum of the list (for C3's tie-break clause). -/
def firstMinBy {α : Type} (key : α → Nat) : List α → Option α
  | [] => none
  | x :: xs =>
    match firstMinBy key xs with
    | none => some x
    | some m => if key x ≤ key m then some x else some m

/-- Type `xcursor::parser::Image`, the external decoder's frame record. -/
structure XImage where
  size : Nat
  width : Nat
  height : Nat
  xhot : Nat
  yhot : Nat
  delay : Nat
  pixels_rgba : List Nat
deriving DecidableEq

/-- Type `Image` (src/lib.rs lines 267-287): one extracted cursor frame. -/
structure Image where
  size : Nat
  width : Nat
  height : Nat
  xhot : Nat
  yhot : Nat
  delay : Nat
  pixels : List Nat
deriving DecidableEq

/-- Function `Image::from_xcursor` (src/lib.rs lines 304-317): field-for-field. -/
def Image.from_xcursor (x : XImage) : Image :=
  ⟨x.size, x.width, x.height, x.xhot, x.yhot, x.delay, x.pixels_rgba⟩

/-- Function `Cursor::frames`, legacy path (src/lib.rs lines 246-261).  `parsed`
models `std::fs::read(path).ok()?` composed with
`xcursor::parser::parse_xcursor(&content)?`; both failures are `none`. -/
def frames_x (parsed : Option (List XImage)) (size : Nat) :
    Option (List Image) :=
  match parsed with
  | none => none
  | some images =>
    match min_by_key (fun img => abs_diff img.size size) images with
    | none => none
    | some nearest =>
      some ((images.filter (fun img => img.size == nearest.size)).map
        Image.from_xcursor)

/-- Type `Meta` (src/lib.rs lines 356-366).  The `hotspot_x`, `hotspot_y` and
`nominal_size` fields are `f32` and enter the embedding only through the
`ScaledFrame` oracle below. -/
structure Meta where
  filename : String
  delay : Option Nat
deriving DecidableEq

/-- The per-frame outcome of the filesystem reads, the external parses
and the floating-point computations of `Image::render_svg` (src/lib.rs
lines 322-352), provided as data: `width` and `height` stand for
`(tree.size().width() * scale) as u32` and
`(tree.size().height() * scale) as u32`, `xhot`/`yhot` for the truncated
scaled hotspot, and `pixels` for `pixmap.take()` after `resvg::render`.
The `f32` arithmetic itself is outside the embedding. -/
structure ScaledFrame where
  readOk : Bool
  treeOk : Bool
  width : Nat
  height : Nat
  xhot : Nat
  yhot : Nat
  pixels : List Nat
deriving DecidableEq

/-- Function `tiny_skia::Pixmap::new(width, height)`, external collaborator:
returns `none` exactly when a dimension is zero (the library requires a
positive `IntSize`); the pixel content after rendering is the oracle's. -/
def Pixmap_new (width height : Nat) (pixels : List Nat) :
    Option (List Nat) :=
  if width = 0 || height = 0 then none else some pixels

/-- Function `Image::render_svg` (src/lib.rs lines 322-352): read the frame's SVG
document, parse it, allocate the pixmap at the scaled dimensions (failing
on a zero dimension), render, and assemble the `Image`; `meta.delay`
defaults to 0. -/
def render_svg (size : Nat) (meta : Meta) (fr : ScaledFrame) :
    Option Image :=
  if fr.readOk then
    if fr.treeOk then
      match Pixmap_new fr.width fr.height fr.pixels with
      | none => none
      | some px =>
        some ⟨size, fr.width, fr.height, fr.xhot, fr.yhot,
              meta.delay.getD 0, px⟩
    else none
  else none

/-- Rust `collect::<Option<Vec<_>>>()`: all-or-nothing sequencing. -/
def collectOption {α : Type} : List (Option α) → Option (List α)
  | [] => some []
  | none :: _ => none
  | some a :: rest =>
    match collectOption rest with
    | none => none
    | some tl => some (a :: tl)

/-- Function `Cursor::frames`, SVG path (src/lib.rs lines 232-244): `metadata`
models `read_to_string(metadata.json).ok()?` composed with
`serde_json::from_str::<Vec<Meta>>(..).ok()?`. -/
def frames_svg (metadata : Option (List Meta))
    (render : Meta → Option Image) : Option (List Image) :=
  match metadata with
  | none => none
  | some metas =>
    if metas.isEmpty then none
    else collectOption (metas.map render)

/-- The per-cursor filesystem/decoder environment consumed by `frames`. -/
structure FramesEnv where
  metadata : Option (List Meta)
  scaled : Meta → ScaledFrame
  parsed : Option (List XImage)

/-- Function `Cursor::frames` (src/lib.rs lines 230-263). -/
def Cursor.frames (c : Cursor) (env : FramesEnv) (size : Nat) :
    Option (List Image) :=
  match c with
  | Cursor.Svg _ =>
    frames_svg env.metadata (fun meta => render_svg size meta (env.scaled meta))
  | Cursor.X _ => frames_x env.parsed size

/-- A concrete decoder output with embedded sizes 24, 32 and 48. -/
def xcursorDemo : List XImage :=
  [⟨24, 24, 24, 1, 1, 0, []⟩, ⟨32, 32, 32, 1, 1, 0, []⟩,
   ⟨48, 48, 48, 1, 1, 0, []⟩]

theorem specSeparator_eq : specSeparator = is_xcursor_space_or_separator := by
  funext ch
  simp only [specSeparator, is_xcursor_space_or_separator]
  by_cases hw : ch.isWhitespace
  · simp [hw]
  · by_cases hsp : ch = ' '
    · exfalso
      apply hw
      rw [hsp]
      decide
    · simp [hw, hsp, Bool.or_comm]

theorem skipSpaces_eq (l : List Char) :
    skipSpaces l = l.dropWhile Char.isWhitespace := by
  induction l with
  | nil => rfl
  | cons c rest ih =>
    simp only [skipSpaces, List.dropWhile]
    by_cases h : Char.isWhitespace c
    · simp [h, ih]
    · simp [h]

theorem beginsWith_iff_take (ps : List Char) :
    ∀ l : List Char, beginsWith ps l = true ↔ l.take ps.length = ps := by
  induction ps with
  | nil =>
    intro l
    simp [beginsWith]
  | cons p ps ih =>
    intro l
    cases l with
    | nil => simp [beginsWith]
    | cons c cs =>
      simp only [beginsWith, List.length_cons, List.take_succ_cons,
        List.cons.injEq, Bool.and_eq_true, decide_eq_true_eq, ih]
      constructor
      · rintro ⟨h1, h2⟩
        exact ⟨h1.symm, h2⟩
      · rintro ⟨h1, h2⟩
        exact ⟨h1.symm, h2⟩

theorem inheritsFromLine_eq_spec (line : List Char) :
    inheritsFromLine line = specLineValue line := by
  simp only [inheritsFromLine, specLineValue, specSeparator_eq, skipSpaces_eq]
  have hlen : INHERITS.length = 8 := rfl
  rw [hlen]
  by_cases h : line.take 8 = INHERITS
  · have hb : beginsWith INHERITS line = true := (beginsWith_iff_take _ _).mpr h
    rw [if_pos h, if_pos hb]
  · have hb : ¬ beginsWith INHERITS line = true := fun hc =>
      h ((beginsWith_iff_take _ _).mp hc)
    rw [if_neg h, if_neg hb]

/-- C7. Theme-index parsing: the reader returns the value of the first
line beginning with the literal token `Inherits`, optional whitespace and
`=`, the value being the run after the `=` trimmed of leading
whitespace/comma/semicolon separators up to the next such separator;
empty-valued lines are skipped, non-matching lines are ignored, no such
line yields nothing; LF and CRLF are both tolerated (the line splitter
strips a `\r` before each `\n`). Formalised as: the embedded
`theme_inherits` equals the reader built from the spec's parsing rule. -/
theorem theme_inherits_matches_spec (content : String) :
    theme_inherits content = theme_inherits_spec content := by
  simp only [theme_inherits, theme_inherits_spec]
  induction rustLines content.toList with
  | nil => rfl
  | cons l ls ih =>
    simp only [List.findSome?_cons, inheritsFromLine_eq_spec, ih]

/-! ### Scanner lemmas -/

theorem lookupName_cons (k : String) (a : String × Nat) (l : List (String × Nat)) :
    lookupName k (a :: l) = if a.1 = k then some a.2 else lookupName k l := rfl

/-- Processing one entry never changes an existing cache binding:
insertions only happen for names whose lookup is `none`. -/
theorem processEntry_preserves (directory : String) (fn : String → Cursor)
    (st : Scan) (e : Entry) (s : String) (v : Nat)
    (h : lookupName s st.cache = some v) :
    lookupName s (processEntry directory fn st e).cache = some v := by
  unfold processEntry
  cases hc : lookupName e.name st.cache with
  | some w => simp [hc, h]
  | none =>
    have hne : ¬ (e.name = s) := by
      intro hes
      rw [hes, h] at hc
      exact Option.noConfusion hc
    by_cases hsym : e.isSymlink = true
    · simp only [hc, Option.isSome_none, Bool.false_eq_true, if_false, hsym,
        if_true]
      cases hcan : e.canonical with
      | none => exact h
      | some pr =>
        obtain ⟨parent, target⟩ := pr
        by_cases hp : parent = directory
        · simp only [hp, if_true]
          cases lookupName target st.cache with
          | none => exact h
          | some handle => simp [lookupName_cons, hne, h]
        · simp [hp, h]
    · simp [hc, hsym, lookupName_cons, hne, h]

theorem foldl_processEntry_preserves (directory : String) (fn : String → Cursor) :
    ∀ (l : List Entry) (st : Scan) (s : String) (v : Nat),
      lookupName s st.cache = some v →
      lookupName s ((l.foldl (processEntry directory fn) st).cache) = some v := by
  intro l
  induction l with
  | nil => intro st s v h; exact h
  | cons e rest ih =>
    intro st s v h
    exact ih _ _ _ (processEntry_preserves _ _ _ _ _ _ h)

/-- Processing an entry can only create a binding for its own name. -/
theorem processEntry_other (directory : String) (fn : String → Cursor)
    (st : Scan) (e : Entry) (s : String) (hne : e.name ≠ s) :
    lookupName s (processEntry directory fn st e).cache
      = lookupName s st.cache := by
  unfold processEntry
  cases hc : lookupName e.name st.cache with
  | some w => simp [hc]
  | none =>
    by_cases hsym : e.isSymlink = true
    · simp only [hc, Option.isSome_none, Bool.false_eq_true, if_false, hsym,
        if_true]
      cases hcan : e.canonical with
      | none => rfl
      | some pr =>
        obtain ⟨parent, target⟩ := pr
        by_cases hp : parent = directory
        · simp only [hp, if_true]
          cases lookupName target st.cache with
          | none => rfl
          | some handle => simp [lookupName_cons, hne]
        · simp [hp]
    · simp [hc, hsym, lookupName_cons, hne]

theorem foldl_processEntry_other (directory : String) (fn : String → Cursor) :
    ∀ (l : List Entry) (st : Scan) (s : String),
      s ∉ l.map Entry.name →
      lookupName s ((l.foldl (processEntry directory fn) st).cache)
        = lookupName s st.cache := by
  intro l
  induction l with
  | nil => intro st s _; rfl
  | cons e rest ih =>
    intro st s hs
    simp only [List.map_cons, List.mem_cons, not_or] at hs
    rw [List.foldl_cons, ih _ _ hs.2,
      processEntry_other _ _ _ _ _ (fun he => hs.1 he.symm)]

/-- A symlink whose canonical target is missing or escapes the scanned
directory leaves the whole state unchanged. -/
theorem processEntry_rejected (directory : String) (fn : String → Cursor)
    (st : Scan) (e : Entry) (hsym : e.isSymlink = true)
    (hrej : ∀ p n, e.canonical = some (p, n) → p ≠ directory) :
    processEntry directory fn st e = st := by
  unfold processEntry
  cases hc : lookupName e.name st.cache with
  | some w => simp [hc]
  | none =>
    simp only [hc, Option.isSome_none, Bool.false_eq_true, if_false, hsym,
      if_true]
    cases hcan : e.canonical with
    | none => rfl
    | some pr =>
      obtain ⟨parent, target⟩ := pr
      simp [hrej parent target hcan]

theorem foldl_processEntry_unchanged (directory : String) (fn : String → Cursor) :
    ∀ (l : List Entry) (st : Scan) (s : String),
      (∀ x ∈ l, ∀ st2 : Scan,
        lookupName s (processEntry directory fn st2 x).cache
          = lookupName s st2.cache) →
      lookupName s ((l.foldl (processEntry directory fn) st).cache)
        = lookupName s st.cache := by
  intro l
  induction l with
  | nil => intro st s _; rfl
  | cons e rest ih =>
    intro st s hall
    rw [List.foldl_cons, ih _ _ (fun x hx => hall x (List.mem_cons_of_mem _ hx)),
      hall e (List.mem_cons_self _ _)]

/-- Processing a non-symlink entry leaves its name bound. -/
theorem processEntry_binds (directory : String) (fn : String → Cursor)
    (st : Scan) (x : Entry) (hns : x.isSymlink = false) :
    ∃ h : Nat, lookupName x.name (processEntry directory fn st x).cache = some h := by
  cases hc : lookupName x.name st.cache with
  | some w => exact ⟨w, by simp [processEntry, hc]⟩
  | none =>
    exact ⟨st.arena.length, by simp [processEntry, hc, hns, lookupName_cons]⟩

/-- Once the fold has processed a non-symlink entry, its name is bound. -/
theorem foldl_processEntry_nonsym_cached (directory : String)
    (fn : String → Cursor) (l : List Entry) (st : Scan) (x : Entry)
    (hx : x ∈ l) (hns : x.isSymlink = false) :
    ∃ h : Nat,
      lookupName x.name ((l.foldl (processEntry directory fn) st).cache)
        = some h := by
  obtain ⟨l1, l2, rfl⟩ := List.append_of_mem hx
  rw [List.foldl_append, List.foldl_cons]
  obtain ⟨h, hh⟩ := processEntry_binds directory fn
    (l1.foldl (processEntry directory fn) st) x hns
  exact ⟨h, foldl_processEntry_preserves _ _ _ _ _ _ hh⟩

/-- Processing an accepted symlink whose name is unbound and whose target
name is bound to `h0` inserts the alias binding `(name, h0)`. -/
theorem processEntry_alias_step (directory : String) (fn : String → Cursor)
    (st : Scan) (e : Entry) (target : String) (h0 : Nat)
    (hesym : e.isSymlink = true)
    (hcanon : e.canonical = some (directory, target))
    (hpre : lookupName target st.cache = some h0)
    (hfresh : lookupName e.name st.cache = none) :
    processEntry directory fn st e
      = { st with cache := (e.name, h0) :: st.cache } := by
  unfold processEntry
  rw [hfresh]
  simp only [Option.isSome_none, Bool.false_eq_true, if_false, hesym,
    if_true, hcanon]
  rw [hpre]

/-- Processing an accepted symlink at a point where its name is unbound and
its target's name is bound to `h0` binds the symlink's name to `h0` as
well, and both bindings survive the rest of the fold. -/
theorem foldl_alias (directory : String) (fn : String → Cursor)
    (l1 : List Entry) (e : Entry) (l2 : List Entry) (st : Scan)
    (target : String) (h0 : Nat)
    (hesym : e.isSymlink = true)
    (hcanon : e.canonical = some (directory, target))
    (hpre : lookupName target ((l1.foldl (processEntry directory fn) st).cache)
      = some h0)
    (hfresh : lookupName e.name ((l1.foldl (processEntry directory fn) st).cache)
      = none) :
    lookupName e.name (((l1 ++ e :: l2).foldl (processEntry directory fn) st).cache)
        = some h0 ∧
    lookupName target (((l1 ++ e :: l2).foldl (processEntry directory fn) st).cache)
        = some h0 := by
  rw [List.foldl_append, List.foldl_cons]
  rw [processEntry_alias_step directory fn _ e target h0 hesym hcanon hpre hfresh]
  constructor
  · exact foldl_processEntry_preserves _ _ _ _ _ _ (by simp [lookupName_cons])
  · refine foldl_processEntry_preserves _ _ _ _ _ _ ?_
    simp only [lookupName_cons]
    by_cases he : e.name = target
    · simp [he]
    · simp [he, hpre]

/-- The processing order of `discover_cursors`: the non-symlink entries,
in directory order, followed by the symlink entries, in directory order. -/
theorem discover_cursors_eq (directory : String) (fn : String → Cursor)
    (es : List Entry) (st : Scan) :
    discover_cursors directory fn (some es) st
      = (es.filter (fun e => !e.isSymlink)
          ++ es.filter (fun e => e.isSymlink)).foldl
            (processEntry directory fn) st := by
  have hnn : (not ∘ fun e : Entry => !e.isSymlink) = fun e : Entry => e.isSymlink := by
    funext e
    simp [Function.comp]
  simp only [discover_cursors, List.partition_eq_filter_filter, hnn]

theorem ordered_names_nodup (es : List Entry)
    (h : (es.map Entry.name).Nodup) :
    (((es.filter (fun e => !e.isSymlink)
        ++ es.filter (fun e => e.isSymlink)).map Entry.name)).Nodup := by
  have hnn : (fun e : Entry => !!e.isSymlink) = fun e : Entry => e.isSymlink :=
    funext (fun e => Bool.not_not e.isSymlink)
  have hperm := List.filter_append_perm (fun e : Entry => !e.isSymlink) es
  rw [hnn] at hperm
  exact ((hperm.map Entry.name).nodup_iff).mpr h

/-- Within one ordered scan, the name of a symlink entry occurring after
the non-symlink pass and the prefix `s1` of the symlink pass is not among
the names processed in that prefix (the entry names are distinct). -/
theorem ordered_prefix_fresh (es : List Entry) (e : Entry) (s1 s2 : List Entry)
    (hnodup : (es.map Entry.name).Nodup)
    (hdecomp : es.filter (fun x => x.isSymlink) = s1 ++ e :: s2) :
    e.name ∉ (es.filter (fun x => !x.isSymlink) ++ s1).map Entry.name := by
  have hordnodup := ordered_names_nodup es hnodup
  rw [hdecomp, ← List.append_assoc, List.map_append, List.nodup_append]
    at hordnodup
  intro hmem
  exact hordnodup.2.2 hmem (by simp)

/-- C2. Symlink aliasing: within one directory scan, non-symlink entries
are processed before symlink entries (this is `discover_cursors_eq`), and
a shape that is a symlink to a sibling regular shape in the same directory
resolves to the same shared handle as its target: looking up either name
yields one identical handle, hence one shared `Cursor` and identical
`frames` output. -/
theorem symlink_alias_shares_handle
    (directory : String) (fn : String → Cursor) (es : List Entry) (st : Scan)
    (e t : Entry)
    (hnodup : (es.map Entry.name).Nodup)
    (he : e ∈ es) (hesym : e.isSymlink = true)
    (hcanon : e.canonical = some (directory, t.name))
    (ht : t ∈ es) (htsym : t.isSymlink = false)
    (hfresh : lookupName e.name st.cache = none) :
    ∃ h : Nat,
      lookupName e.name (discover_cursors directory fn (some es) st).cache
        = some h ∧
      lookupName t.name (discover_cursors directory fn (some es) st).cache
        = some h := by
  rw [discover_cursors_eq]
  have hememsy : e ∈ es.filter (fun x => x.isSymlink) :=
    List.mem_filter.mpr ⟨he, hesym⟩
  have htmem : t ∈ es.filter (fun x => !x.isSymlink) :=
    List.mem_filter.mpr ⟨ht, by simp [htsym]⟩
  obtain ⟨s1, s2, hdecomp⟩ := List.append_of_mem hememsy
  have hnotin := ordered_prefix_fresh es e s1 s2 hnodup hdecomp
  rw [hdecomp, ← List.append_assoc]
  obtain ⟨h0, hth0⟩ := foldl_processEntry_nonsym_cached directory fn
    (es.filter (fun x => !x.isSymlink)) st t htmem htsym
  have hth1 : lookupName t.name
      (((es.filter (fun x => !x.isSymlink) ++ s1).foldl
        (processEntry directory fn) st).cache) = some h0 := by
    rw [List.foldl_append]
    exact foldl_processEntry_preserves _ _ _ _ _ _ hth0
  have hfresh1 : lookupName e.name
      (((es.filter (fun x => !x.isSymlink) ++ s1).foldl
        (processEntry directory fn) st).cache) = none := by
    rw [foldl_processEntry_other _ _ _ _ _ hnotin]
    exact hfresh
  obtain ⟨ha, hb⟩ := foldl_alias directory fn
    (es.filter (fun x => !x.isSymlink) ++ s1) e s2 st t.name h0
    hesym hcanon hth1 hfresh1
  exact ⟨h0, ha, hb⟩

theorem symlink_alias_shares_handle_witness :
    ∃ h : Nat,
      lookupName "left_ptr"
        (discover_cursors "d" Cursor.X
          (some [⟨"arrow", false, none⟩, ⟨"left_ptr", true, some ("d", "arrow")⟩])
          ⟨[], []⟩).cache = some h ∧
      lookupName "arrow"
        (discover_cursors "d" Cursor.X
          (some [⟨"arrow", false, none⟩, ⟨"left_ptr", true, some ("d", "arrow")⟩])
          ⟨[], []⟩).cache = some h :=
  symlink_alias_shares_handle "d" Cursor.X
    [⟨"arrow", false, none⟩, ⟨"left_ptr", true, some ("d", "arrow")⟩]
    ⟨[], []⟩
    ⟨"left_ptr", true, some ("d", "arrow")⟩ ⟨"arrow", false, none⟩
    (by decide) (by decide) (by decide) (by decide) (by decide) (by decide)
    (by decide)

/-- C6. Symlink escape protection: a symlink entry whose canonical
target's parent is not the scanned directory (or whose canonicalisation
fails) is rejected — the scan leaves that shape name's binding exactly as
it was, so targets outside the shape directory are never materialised;
a symlink whose canonical parent equals the directory and whose target
name is already cached is accepted as an alias of the cached handle. -/
theorem symlink_escape_protection
    (directory : String) (fn : String → Cursor) (es : List Entry) (st : Scan)
    (e : Entry)
    (hnodup : (es.map Entry.name).Nodup)
    (he : e ∈ es) (hesym : e.isSymlink = true) :
    ((∀ p n, e.canonical = some (p, n) → p ≠ directory) →
      lookupName e.name (discover_cursors directory fn (some es) st).cache
        = lookupName e.name st.cache) ∧
    (∀ target h0, e.canonical = some (directory, target) →
      lookupName target st.cache = some h0 →
      lookupName e.name st.cache = none →
      lookupName e.name (discover_cursors directory fn (some es) st).cache
        = some h0) := by
  constructor
  · intro hrej
    rw [discover_cursors_eq]
    apply foldl_processEntry_unchanged
    intro x hx st2
    by_cases hxe : x.name = e.name
    · have hordnodup := ordered_names_nodup es hnodup
      have heord : e ∈ es.filter (fun x => !x.isSymlink)
          ++ es.filter (fun x => x.isSymlink) :=
        List.mem_append_right _ (List.mem_filter.mpr ⟨he, hesym⟩)
      have hxeq : x = e := List.inj_on_of_nodup_map hordnodup hx heord hxe
      rw [hxeq, processEntry_rejected _ _ _ _ hesym hrej]
    · rw [processEntry_other _ _ _ _ _ hxe]
  · intro target h0 hcanon hpre hfresh
    rw [discover_cursors_eq]
    have hememsy : e ∈ es.filter (fun x => x.isSymlink) :=
      List.mem_filter.mpr ⟨he, hesym⟩
    obtain ⟨s1, s2, hdecomp⟩ := List.append_of_mem hememsy
    have hnotin := ordered_prefix_fresh es e s1 s2 hnodup hdecomp
    rw [hdecomp, ← List.append_assoc]
    have hth1 : lookupName target
        (((es.filter (fun x => !x.isSymlink) ++ s1).foldl
          (processEntry directory fn) st).cache) = some h0 :=
      foldl_processEntry_preserves _ _ _ _ _ _ hpre
    have hfresh1 : lookupName e.name
        (((es.filter (fun x => !x.isSymlink) ++ s1).foldl
          (processEntry directory fn) st).cache) = none := by
      rw [foldl_processEntry_other _ _ _ _ _ hnotin]
      exact hfresh
    exact (foldl_alias directory fn
      (es.filter (fun x => !x.isSymlink) ++ s1) e s2 st target h0
      hesym hcanon hth1 hfresh1).1

theorem symlink_escape_protection_witness :
    (lookupName "evil"
      (discover_cursors "d" Cursor.X
        (some [⟨"a", false, none⟩, ⟨"evil", true, some ("outside", "a")⟩])
        ⟨[("pre", 5)], [Cursor.X "p"]⟩).cache
      = lookupName "evil" (Scan.mk [("pre", 5)] [Cursor.X "p"]).cache) ∧
    (lookupName "alias2"
      (discover_cursors "d" Cursor.X
        (some [⟨"alias2", true, some ("d", "pre")⟩])
        ⟨[("pre", 5)], [Cursor.X "p"]⟩).cache = some 5) :=
  ⟨(symlink_escape_protection "d" Cursor.X
      [⟨"a", false, none⟩, ⟨"evil", true, some ("outside", "a")⟩]
      ⟨[("pre", 5)], [Cursor.X "p"]⟩
      ⟨"evil", true, some ("outside", "a")⟩
      (by decide) (by decide) (by decide)).1
    (by
      intro p n hpn
      replace hpn : some ("outside", "a") = some (p, n) := hpn
      injection hpn with h2
      injection h2 with h3 h4
      rw [← h3]
      decide),
   (symlink_escape_protection "d" Cursor.X
      [⟨"alias2", true, some ("d", "pre")⟩]
      ⟨[("pre", 5)], [Cursor.X "p"]⟩
      ⟨"alias2", true, some ("d", "pre")⟩
      (by decide) (by decide) (by decide)).2 "pre" 5 rfl (by decide) (by decide)⟩

theorem discover_cursors_preserves (directory : String) (fn : String → Cursor)
    (listing : Option (List Entry)) (st : Scan) (s : String) (v : Nat)
    (h : lookupName s st.cache = some v) :
    lookupName s (discover_cursors directory fn listing st).cache = some v := by
  cases listing with
  | none => exact h
  | some es =>
    rw [discover_cursors_eq]
    exact foldl_processEntry_preserves _ _ _ _ _ _ h

theorem scanRoot_preserves (fs : Fs) (path : String) (st : Scan)
    (s : String) (v : Nat) (h : lookupName s st.cache = some v) :
    lookupName s (scanRoot fs path st).cache = some v := by
  unfold scanRoot discover_svg_cursors discover_x_cursors
  by_cases h1 : fs.isDir (path ++ "/cursors_scalable") = true
  · rw [if_pos h1]
    exact discover_cursors_preserves _ _ _ _ _ _ h
  · rw [if_neg h1]
    by_cases h2 : fs.isDir (path ++ "/cursors") = true
    · rw [if_pos h2]
      exact discover_cursors_preserves _ _ _ _ _ _ h
    · rw [if_neg h2]
      exact h

theorem rootStep_preserves (fs : Fs) (name : String)
    (acc : Scan × Option String) (root : String) (s : String) (v : Nat)
    (h : lookupName s acc.1.cache = some v) :
    lookupName s ((rootStep fs name acc root).1.cache) = some v := by
  unfold rootStep
  by_cases hd : fs.isDir (root ++ "/" ++ name) = true
  · rw [if_pos hd]
    exact scanRoot_preserves _ _ _ _ _ h
  · rw [if_neg hd]
    exact h

theorem foldl_rootStep_preserves (fs : Fs) (name : String) :
    ∀ (roots : List String) (acc : Scan × Option String) (s : String) (v : Nat),
      lookupName s acc.1.cache = some v →
      lookupName s ((roots.foldl (rootStep fs name) acc).1.cache) = some v := by
  intro roots
  induction roots with
  | nil => intro acc s v h; exact h
  | cons r rest ih =>
    intro acc s v h
    rw [List.foldl_cons]
    exact ih _ _ _ (rootStep_preserves _ _ _ _ _ _ h)

theorem discoverStep_preserves (fs : Fs) (name : String) (st : Scan)
    (s : String) (v : Nat) (h : lookupName s st.cache = some v) :
    lookupName s ((discoverStep fs name st).1.cache) = some v :=
  foldl_rootStep_preserves fs name fs.roots (st, none) s v h

theorem discoverLoop_preserves (fs : Fs) :
    ∀ (fuel : Nat) (stack : List String) (st : Scan) (s : String) (v : Nat),
      lookupName s st.cache = some v →
      lookupName s (discoverLoop fs fuel stack st).cache = some v := by
  intro fuel
  induction fuel with
  | zero => intro stack st s v h; exact h
  | succ n ih =>
    intro stack st s v h
    cases stack with
    | nil => exact h
    | cons name rest =>
      have hred : discoverLoop fs (n + 1) (name :: rest) st
          = match discoverStep fs name st with
            | (st2, some it) => discoverLoop fs n (it :: rest) st2
            | (st2, none) => discoverLoop fs n rest st2 := rfl
      rw [hred]
      have hpres := discoverStep_preserves fs name st s v h
      cases hstep : discoverStep fs name st with
      | mk st2 inh =>
        rw [hstep] at hpres
        cases inh with
        | some it => exact ih _ _ _ _ hpres
        | none => exact ih _ _ _ _ hpres

/-- C1. First-writer-wins precedence: a shape-name binding present at any
point of theme resolution — in particular one inserted by an
earlier-scanned root, or by an earlier-processed theme of the inheritance
chain — survives unchanged through the rest of the resolution loop,
whatever later roots, themes, regular entries or symlinks contain: the
scanner inserts only names whose lookup is still `none`. -/
theorem first_writer_wins (fs : Fs) (fuel : Nat) (stack : List String)
    (st : Scan) (s : String) (v : Nat)
    (h : lookupName s st.cache = some v) :
    lookupName s (discoverLoop fs fuel stack st).cache = some v :=
  discoverLoop_preserves fs fuel stack st s v h

theorem first_writer_wins_witness :
    lookupName "arrow" (Scan.mk [("arrow", 7)] []).cache = some 7 ∧
    lookupName "arrow"
      (discoverLoop fsDemo 3 ["t"] ⟨[("arrow", 7)], []⟩).cache = some 7 :=
  ⟨by decide,
   first_writer_wins fsDemo 3 ["t"] ⟨[("arrow", 7)], []⟩ "arrow" 7 (by decide)⟩

theorem cache_isEmpty_iff (l : List (String × Nat)) :
    l.isEmpty = true ↔ l = [] := by
  cases l <;> simp

theorem load_eq (fs : Fs) (fuel : Nat) (name : String) :
    load fs fuel name
      = if (discover fs fuel name ⟨[], []⟩).cache.isEmpty then none
        else some ⟨(discover fs fuel name ⟨[], []⟩).cache,
                   (discover fs fuel name ⟨[], []⟩).arena⟩ := rfl

theorem discoverLoop_nil (fs : Fs) (fuel : Nat) (st : Scan) :
    discoverLoop fs fuel [] st = st := by
  cases fuel <;> rfl

theorem foldl_rootStep_nodir (fs : Fs) (name : String) :
    ∀ (roots : List String) (acc : Scan × Option String),
      (∀ root ∈ roots, fs.isDir (root ++ "/" ++ name) = false) →
      roots.foldl (rootStep fs name) acc = acc := by
  intro roots
  induction roots with
  | nil => intro acc _; rfl
  | cons r rest ih =>
    intro acc h
    rw [List.foldl_cons]
    have hr : rootStep fs name acc r = acc := by
      unfold rootStep
      simp [h r (List.mem_cons_self _ _)]
    rw [hr]
    exact ih _ (fun root hm => h root (List.mem_cons_of_mem _ hm))

theorem discoverStep_nodir (fs : Fs) (name : String) (st : Scan)
    (h : ∀ root ∈ fs.roots, fs.isDir (root ++ "/" ++ name) = false) :
    discoverStep fs name st = (st, none) :=
  foldl_rootStep_nodir fs name fs.roots (st, none) h

theorem discover_nodir (fs : Fs) (fuel : Nat) (name : String) (st : Scan)
    (h : ∀ root ∈ fs.roots, fs.isDir (root ++ "/" ++ name) = false) :
    discover fs fuel name st = st := by
  unfold discover
  cases fuel with
  | zero => rfl
  | succ n =>
    have hred : discoverLoop fs (n + 1) [name] st
        = match discoverStep fs name st with
          | (st2, some it) => discoverLoop fs n [it] st2
          | (st2, none) => discoverLoop fs n [] st2 := rfl
    rw [hred, discoverStep_nodir fs name st h]
    exact discoverLoop_nil fs n st

/-- C5. `load(name)` succeeds iff the consolidated cache is non-empty
after the full traversal of the requested theme and its inherited
ancestors over every search root: a returned `CursorTheme` always holds
at least one shape, success is equivalent to the post-traversal cache
being non-empty, and a name with no matching directory in any search root
(hence also no discoverable ancestors) loads as not-found. -/
theorem load_some_iff_icons_found (fs : Fs) (fuel : Nat) (name : String) :
    (∀ th : CursorTheme, load fs fuel name = some th → th.cache ≠ []) ∧
    ((load fs fuel name).isSome = true ↔
      (discover fs fuel name ⟨[], []⟩).cache ≠ []) ∧
    ((∀ root ∈ fs.roots, fs.isDir (root ++ "/" ++ name) = false) →
      load fs fuel name = none) := by
  refine ⟨?_, ?_, ?_⟩
  · intro th h
    rw [load_eq] at h
    by_cases hemp : (discover fs fuel name ⟨[], []⟩).cache.isEmpty = true
    · rw [if_pos hemp] at h
      exact Option.noConfusion h
    · rw [if_neg hemp] at h
      injection h with h2
      subst h2
      intro hnil
      apply hemp
      rw [show (discover fs fuel name ⟨[], []⟩).cache = [] from hnil]
      rfl
  · rw [load_eq]
    by_cases hemp : (discover fs fuel name ⟨[], []⟩).cache.isEmpty = true
    · rw [if_pos hemp, (cache_isEmpty_iff _).mp hemp]
      simp
    · rw [if_neg hemp]
      have hne : (discover fs fuel name ⟨[], []⟩).cache ≠ [] := fun hnil =>
        hemp (by rw [hnil]; rfl)
      simp [hne]
  · intro hnone
    rw [load_eq, discover_nodir fs fuel name ⟨[], []⟩ hnone]
    rfl

theorem load_some_iff_icons_found_witness :
    load fsDemo 5 "nosuch" = none :=
  (load_some_iff_icons_found fsDemo 5 "nosuch").2.2 (by decide)

/-- C9. Per-root format exclusivity: for a root whose theme directory has
an SVG-format subdirectory, the scan equals the SVG pass alone and is
independent of the legacy `cursors` listing (the legacy pass never runs);
without an SVG-format subdirectory the scan is exactly the legacy
fallback.  At most one of the two format passes runs per root. -/
theorem per_root_format_exclusivity (fs fs2 : Fs) (path : String) (st : Scan)
    (hdir : ∀ p, fs2.isDir p = fs.isDir p)
    (hrd : ∀ p, p ≠ path ++ "/cursors" → fs2.readDir p = fs.readDir p) :
    (fs.isDir (path ++ "/cursors_scalable") = true →
      scanRoot fs2 path st = scanRoot fs path st ∧
      scanRoot fs path st
        = discover_svg_cursors fs (path ++ "/cursors_scalable") st) ∧
    (fs.isDir (path ++ "/cursors_scalable") = false →
      scanRoot fs path st
        = if fs.isDir (path ++ "/cursors") = true then
            discover_x_cursors fs (path ++ "/cursors") st
          else st) := by
  have hne : path ++ "/cursors_scalable" ≠ path ++ "/cursors" := by
    intro hcontra
    have hlen := congrArg String.length hcontra
    rw [String.length_append, String.length_append] at hlen
    rw [show ("/cursors_scalable" : String).length = 17 from rfl,
      show ("/cursors" : String).length = 8 from rfl] at hlen
    omega
  constructor
  · intro hsvg
    constructor
    · unfold scanRoot discover_svg_cursors
      simp only [hdir, hsvg, if_true]
      rw [hrd _ hne]
    · unfold scanRoot
      simp only [hsvg, if_true]
  · intro hsvg
    unfold scanRoot
    simp only [hsvg, Bool.false_eq_true, if_false]

theorem per_root_format_exclusivity_witness :
    scanRoot fsDemo2 "r1/t" ⟨[], []⟩ = scanRoot fsDemo "r1/t" ⟨[], []⟩ ∧
    scanRoot fsDemo "r1/t" ⟨[], []⟩
      = discover_svg_cursors fsDemo ("r1/t" ++ "/cursors_scalable") ⟨[], []⟩ :=
  (per_root_format_exclusivity fsDemo fsDemo2 "r1/t" ⟨[], []⟩
    (fun p => rfl)
    (by
      intro p hp
      have hp2 : ¬ (p = "r1/t/cursors") := fun hh => hp (by rw [hh]; rfl)
      show (if p = "r1/t/cursors" then some [⟨"legacy", false, none⟩]
            else fsDemo.readDir p) = fsDemo.readDir p
      rw [if_neg hp2])).1 (by decide)

theorem foldl_min_eq_firstMinBy {α : Type} (key : α → Nat) :
    ∀ (xs : List α) (x : α),
      xs.foldl (fun acc y => if key y < key acc then y else acc) x
        = match firstMinBy key xs with
          | none => x
          | some m => if key x ≤ key m then x else m := by
  intro xs
  induction xs with
  | nil => intro x; rfl
  | cons y ys ih =>
    intro x
    rw [List.foldl_cons, ih]
    cases hys : firstMinBy key ys with
    | none =>
      simp only [firstMinBy, hys]
      by_cases h1 : key y < key x
      · rw [if_pos h1, if_neg (by omega : ¬ key x ≤ key y)]
      · rw [if_neg h1, if_pos (by omega : key x ≤ key y)]
    | some m =>
      simp only [firstMinBy, hys]
      by_cases h1 : key y < key x <;> by_cases h2 : key y ≤ key m
      · simp [h1, h2, show ¬ key x ≤ key y by omega]
      · simp [h1, h2, show ¬ key x ≤ key m by omega]
      · simp [h1, h2, show key x ≤ key m by omega,
          show key x ≤ key y by omega]
      · simp [h1, h2]

theorem min_by_key_eq_firstMinBy {α : Type} (key : α → Nat) (l : List α) :
    min_by_key key l = firstMinBy key l := by
  cases l with
  | nil => rfl
  | cons x xs =>
    simp only [min_by_key, foldl_min_eq_firstMinBy]
    cases hxs : firstMinBy key xs with
    | none => simp [firstMinBy, hxs]
    | some m =>
      simp only [firstMinBy, hxs]
      by_cases h : key x ≤ key m
      · rw [if_pos h, if_pos h]
      · rw [if_neg h, if_neg h]

theorem firstMinBy_eq_none {α : Type} (key : α → Nat) :
    ∀ xs : List α, firstMinBy key xs = none ↔ xs = [] := by
  intro xs
  cases xs with
  | nil => simp [firstMinBy]
  | cons y ys =>
    simp only [firstMinBy]
    cases firstMinBy key ys with
    | none => simp
    | some m => by_cases h : key y ≤ key m <;> simp [h]

theorem firstMinBy_min {α : Type} (key : α → Nat) :
    ∀ (l : List α) (m : α), firstMinBy key l = some m →
      m ∈ l ∧ ∀ y ∈ l, key m ≤ key y := by
  intro l
  induction l with
  | nil => intro m h; exact Option.noConfusion h
  | cons x xs ih =>
    intro m h
    cases hxs : firstMinBy key xs with
    | none =>
      simp only [firstMinBy, hxs] at h
      injection h with h2
      subst h2
      have hnil : xs = [] := (firstMinBy_eq_none key xs).mp hxs
      subst hnil
      refine ⟨List.mem_cons_self _ _, ?_⟩
      intro y hy
      rcases List.mem_cons.mp hy with rfl | hy2
      · exact le_refl _
      · exact absurd hy2 (List.not_mem_nil _)
    | some mm =>
      simp only [firstMinBy, hxs] at h
      obtain ⟨hmem, hmin⟩ := ih mm hxs
      by_cases hc : key x ≤ key mm
      · rw [if_pos hc] at h
        injection h with h2
        subst h2
        refine ⟨List.mem_cons_self _ _, ?_⟩
        intro y hy
        rcases List.mem_cons.mp hy with rfl | hy2
        · exact le_refl _
        · exact le_trans hc (hmin y hy2)
      · rw [if_neg hc] at h
        injection h with h2
        subst h2
        refine ⟨List.mem_cons_of_mem _ hmem, ?_⟩
        intro y hy
        rcases List.mem_cons.mp hy with rfl | hy2
        · omega
        · exact hmin y hy2

/-- C3. Legacy-format nearest-size selection: a decode to a non-empty
record list always yields frames; the selected nominal size is that of
the first record minimising the absolute difference to the requested size
(ties to the record the decoder returns first), and the result is exactly
the records of that size, in decoder order, mapped field-for-field. -/
theorem legacy_nearest_size (images : List XImage) (size : Nat)
    (hne : images ≠ []) :
    ∃ m : XImage,
      firstMinBy (fun img => abs_diff img.size size) images = some m ∧
      m ∈ images ∧
      (∀ i ∈ images, abs_diff m.size size ≤ abs_diff i.size size) ∧
      frames_x (some images) size
        = some ((images.filter (fun img => img.size == m.size)).map
            Image.from_xcursor) := by
  cases hfm : firstMinBy (fun img => abs_diff img.size size) images with
  | none => exact absurd ((firstMinBy_eq_none _ images).mp hfm) hne
  | some m =>
    obtain ⟨hmem, hmin⟩ := firstMinBy_min _ images m hfm
    refine ⟨m, rfl, hmem, hmin, ?_⟩
    have hred : frames_x (some images) size
        = match min_by_key (fun img => abs_diff img.size size) images with
          | none => none
          | some nearest =>
            some ((images.filter (fun img => img.size == nearest.size)).map
              Image.from_xcursor) := rfl
    rw [hred, min_by_key_eq_firstMinBy, hfm]

theorem legacy_nearest_size_witness :
    (xcursorDemo ≠ []) ∧
    (∃ m : XImage,
      firstMinBy (fun img => abs_diff img.size 30) xcursorDemo = some m ∧
      m ∈ xcursorDemo ∧
      (∀ i ∈ xcursorDemo, abs_diff m.size 30 ≤ abs_diff i.size 30) ∧
      frames_x (some xcursorDemo) 30
        = some ((xcursorDemo.filter (fun img => img.size == m.size)).map
            Image.from_xcursor)) ∧
    frames_x (some xcursorDemo) 30
      = some [Image.from_xcursor ⟨32, 32, 32, 1, 1, 0, []⟩] ∧
    frames_x (some xcursorDemo) 48
      = some [Image.from_xcursor ⟨48, 48, 48, 1, 1, 0, []⟩] :=
  ⟨by decide, legacy_nearest_size xcursorDemo 30 (by decide),
   by decide, by decide⟩

theorem collectOption_none {α : Type} :
    ∀ (opts : List (Option α)), none ∈ opts → collectOption opts = none := by
  intro opts
  induction opts with
  | nil => intro h; exact absurd h (List.not_mem_nil _)
  | cons o rest ih =>
    intro h
    cases o with
    | none => rfl
    | some a =>
      rcases List.mem_cons.mp h with h1 | h2
      · exact Option.noConfusion h1
      · simp [collectOption, ih h2]

theorem collectOption_length {α : Type} :
    ∀ (opts : List (Option α)) (l : List α),
      collectOption opts = some l → l.length = opts.length := by
  intro opts
  induction opts with
  | nil =>
    intro l h
    injection h with h2
    subst h2
    rfl
  | cons o rest ih =>
    intro l h
    cases o with
    | none => exact Option.noConfusion h
    | some a =>
      simp only [collectOption] at h
      cases hr : collectOption rest with
      | none => rw [hr] at h; exact Option.noConfusion h
      | some tl =>
        rw [hr] at h
        injection h with h2
        subst h2
        simp [ih tl hr]

/-- C4. `frames` is all-or-nothing: an absent/unparsable or empty SVG
metadata document yields not-found; one failing frame read/parse/render
fails the whole SVG call; a successful SVG call returns exactly one image
per metadata record (no partial and no empty result); an absent,
unparsable or zero-record legacy file yields not-found, and a successful
legacy call is never empty. -/
theorem frames_all_or_nothing (path : String) (env : FramesEnv) (size : Nat) :
    ((env.metadata = none ∨ env.metadata = some []) →
      (Cursor.Svg path).frames env size = none) ∧
    (∀ metas, env.metadata = some metas →
      (∃ m ∈ metas, render_svg size m (env.scaled m) = none) →
      (Cursor.Svg path).frames env size = none) ∧
    (∀ l, (Cursor.Svg path).frames env size = some l →
      ∃ metas, env.metadata = some metas ∧ l.length = metas.length ∧ l ≠ []) ∧
    ((env.parsed = none ∨ env.parsed = some []) →
      (Cursor.X path).frames env size = none) ∧
    (∀ l, (Cursor.X path).frames env size = some l → l ≠ []) := by
  refine ⟨?_, ?_, ?_, ?_, ?_⟩
  · rintro (h | h) <;> simp [Cursor.frames, frames_svg, h]
  · intro metas hm hex
    obtain ⟨m, hmem, hnone⟩ := hex
    simp only [Cursor.frames, frames_svg, hm]
    by_cases he : metas.isEmpty
    · simp [he]
    · rw [if_neg he]
      apply collectOption_none
      rw [← hnone]
      exact List.mem_map_of_mem _ hmem
  · intro l hl
    simp only [Cursor.frames, frames_svg] at hl
    cases hmeta : env.metadata with
    | none => rw [hmeta] at hl; exact Option.noConfusion hl
    | some metas =>
      rw [hmeta] at hl
      replace hl : (if metas.isEmpty = true then none
          else collectOption (metas.map
            (fun meta => render_svg size meta (env.scaled meta)))) = some l := hl
      by_cases he : metas.isEmpty
      · rw [if_pos he] at hl
        exact Option.noConfusion hl
      · rw [if_neg he] at hl
        have hlen := collectOption_length _ _ hl
        refine ⟨metas, rfl, ?_, ?_⟩
        · simpa using hlen
        · intro hnil
          apply he
          rw [hnil] at hlen
          have hmnil : metas = [] := by
            cases metas with
            | nil => rfl
            | cons _ _ => simp at hlen
          rw [hmnil]
          rfl
  · rintro (h | h) <;> simp [Cursor.frames, frames_x, h, min_by_key]
  · intro l hl
    simp only [Cursor.frames, frames_x] at hl
    cases hp : env.parsed with
    | none => rw [hp] at hl; exact Option.noConfusion hl
    | some images =>
      rw [hp] at hl
      replace hl : (match min_by_key (fun img => abs_diff img.size size) images with
          | none => none
          | some nearest =>
            some ((images.filter (fun img => img.size == nearest.size)).map
              Image.from_xcursor)) = some l := hl
      cases hm : min_by_key (fun img => abs_diff img.size size) images with
      | none => rw [hm] at hl; exact Option.noConfusion hl
      | some nearest =>
        rw [hm] at hl
        injection hl with h2
        subst h2
        rw [min_by_key_eq_firstMinBy] at hm
        obtain ⟨hmem, _⟩ := firstMinBy_min _ _ _ hm
        intro hnil
        have hin : nearest ∈ images.filter (fun img => img.size == nearest.size) :=
          List.mem_filter.mpr ⟨hmem, by simp⟩
        have hfe := List.map_eq_nil_iff.mp hnil
        rw [hfe] at hin
        exact absurd hin (List.not_mem_nil _)

theorem frames_all_or_nothing_witness :
    (Cursor.Svg "p").frames
      ⟨some [⟨"f.svg", none⟩], fun _ => ⟨false, false, 0, 0, 0, 0, []⟩, none⟩
      24 = none :=
  (frames_all_or_nothing "p"
    ⟨some [⟨"f.svg", none⟩], fun _ => ⟨false, false, 0, 0, 0, 0, []⟩, none⟩
    24).2.1 [⟨"f.svg", none⟩] rfl
    ⟨⟨"f.svg", none⟩, List.mem_cons_self _ _, rfl⟩

theorem render_svg_zero_dim (size : Nat) (meta : Meta) (fr : ScaledFrame)
    (h : fr.width = 0 ∨ fr.height = 0) :
    render_svg size meta fr = none := by
  rcases h with h | h <;>
    cases hro : fr.readOk <;> cases hrt : fr.treeOk <;>
      simp [render_svg, Pixmap_new, hro, hrt, h]

/-- C10. Zero-dimension edge case: if the scaled output width or height
of any frame of an SVG-format cursor truncates to zero, the pixmap
allocation for that frame fails and the whole `frames` call returns
not-found — never an image with an empty pixel buffer. -/
theorem svg_zero_dimension_not_found (path : String) (env : FramesEnv)
    (size : Nat) (metas : List Meta) (m : Meta)
    (hmeta : env.metadata = some metas) (hm : m ∈ metas)
    (hzero : (env.scaled m).width = 0 ∨ (env.scaled m).height = 0) :
    (Cursor.Svg path).frames env size = none := by
  simp only [Cursor.frames, frames_svg, hmeta]
  by_cases he : metas.isEmpty
  · rw [if_pos he]
  · rw [if_neg he]
    apply collectOption_none
    rw [← render_svg_zero_dim size m (env.scaled m) hzero]
    exact List.mem_map_of_mem _ hm

theorem svg_zero_dimension_not_found_witness :
    (Cursor.Svg "p").frames
      ⟨some [⟨"a.svg", some 10⟩], fun _ => ⟨true, true, 0, 5, 0, 0, []⟩, none⟩
      1 = none :=
  svg_zero_dimension_not_found "p"
    ⟨some [⟨"a.svg", some 10⟩], fun _ => ⟨true, true, 0, 5, 0, 0, []⟩, none⟩
    1 [⟨"a.svg", some 10⟩] ⟨"a.svg", some 10⟩
    rfl (List.mem_cons_self _ _) (Or.inl rfl)

end Kcursor
